import Mathlib

/-!
# Verification of the receipt / log-index subsystem and EVM extensibility surface

Shallow embedding of the `ReceiptsManager` (packages/client/lib/execution/receipt.ts),
the SHA256 / RIPEMD160 precompiles (packages/evm precompiles `02` and `03`) and the
custom-opcode surface of the EVM, together with proofs of the spec claims about them.

Buffers are embedded as `List Nat` (one `Nat` per byte), JS `number`/`bigint` as `Nat`
(or `Int` where block heights can go negative), and the key-value metaDB as functions
`List Nat → Option (List Nat)`.
-/

/-! ## Byte-string helpers (`@ethereumjs/util`)

`intToBuffer` / `bigIntToBuffer` turn a number into `0x`-hex and parse the
even-padded hex back into bytes: the result is the minimal big-endian byte string,
except that `0` encodes as the single byte `0x00`. `bufferToInt` / `bufferToBigInt`
read bytes back as a big-endian number (empty buffer gives `0`). -/

/-- Helper for `natToBytesBE`: the fuel argument keeps the recursion structural
(any fuel at least `n` gives the same result). -/
def natToBytesBEAux (fuel n : Nat) : List Nat :=
  match fuel with
  | 0 => [n % 256]
  | fuel + 1 => if n < 256 then [n] else natToBytesBEAux fuel (n / 256) ++ [n % 256]

/-- Minimal big-endian byte string of `n`, with `natToBytesBE 0 = [0]`
(matching `intToBuffer(0)` in `@ethereumjs/util`, which hex-pads `'0'` to `'00'`). -/
def natToBytesBE (n : Nat) : List Nat := natToBytesBEAux n n

theorem natToBytesBEAux_congr (fuel : Nat) :
    ∀ fuel' n, n ≤ fuel → n ≤ fuel' → natToBytesBEAux fuel n = natToBytesBEAux fuel' n := by
  induction fuel with
  | zero =>
    intro fuel' n hf hf'
    have hn : n = 0 := by omega
    subst hn
    cases fuel' with
    | zero => rfl
    | succ f => simp [natToBytesBEAux]
  | succ fuel ih =>
    intro fuel' n hf hf'
    cases fuel' with
    | zero =>
      have hn : n = 0 := by omega
      subst hn
      simp [natToBytesBEAux]
    | succ f =>
      simp only [natToBytesBEAux]
      by_cases hn : n < 256
      · rw [if_pos hn, if_pos hn]
      · rw [if_neg hn, if_neg hn]
        have hdiv : n / 256 < n := Nat.div_lt_self (by omega) (by omega)
        rw [ih f (n / 256) (by omega) (by omega)]

/-- Unfolding equation for `natToBytesBE`. -/
theorem natToBytesBE_eq (n : Nat) :
    natToBytesBE n = if n < 256 then [n] else natToBytesBE (n / 256) ++ [n % 256] := by
  show natToBytesBEAux n n = _
  match n with
  | 0 => simp [natToBytesBEAux]
  | m + 1 =>
    simp only [natToBytesBEAux]
    by_cases hn : m + 1 < 256
    · rw [if_pos hn, if_pos hn]
    · rw [if_neg hn, if_neg hn]
      have hdiv : (m + 1) / 256 < m + 1 := Nat.div_lt_self (by omega) (by omega)
      rw [natToBytesBEAux_congr m ((m + 1) / 256) ((m + 1) / 256) (by omega) (by omega)]
      rfl

/-- Big-endian byte string to number (`bufferToBigInt` / `bufferToInt`). -/
def bytesToNat (l : List Nat) : Nat :=
  l.foldl (fun acc b => acc * 256 + b) 0

/-- `intToBuffer` from `@ethereumjs/util` (numbers are non-negative here). -/
def intToBuffer (n : Nat) : List Nat := natToBytesBE n

/-- `bigIntToBuffer` from `@ethereumjs/util`. -/
def bigIntToBuffer (n : Nat) : List Nat := natToBytesBE n

theorem natToBytesBE_ne_nil (n : Nat) : natToBytesBE n ≠ [] := by
  rw [natToBytesBE_eq]
  split
  · simp
  · simp

theorem bytesToNat_append_singleton (l : List Nat) (b : Nat) :
    bytesToNat (l ++ [b]) = bytesToNat l * 256 + b := by
  simp [bytesToNat, List.foldl_append]

theorem bytesToNat_natToBytesBE (n : Nat) : bytesToNat (natToBytesBE n) = n := by
  induction n using Nat.strong_induction_on with
  | _ n ih =>
    rw [natToBytesBE_eq]
    split
    · simp [bytesToNat]
    · rename_i h
      rw [bytesToNat_append_singleton, ih (n / 256) (Nat.div_lt_self (by omega) (by omega))]
      omega

theorem natToBytesBE_length_le (n k : Nat) (hk : 1 ≤ k) (h : n < 256 ^ k) :
    (natToBytesBE n).length ≤ k := by
  induction k generalizing n with
  | zero => omega
  | succ k ih =>
    rw [natToBytesBE_eq]
    split
    · simp
    · rename_i hn
      have hk1 : 1 ≤ k := by
        by_contra hk0
        have hk' : k = 0 := by omega
        subst hk'
        simp at h
        omega
      have hdiv : n / 256 < 256 ^ k := by
        rw [Nat.div_lt_iff_lt_mul (by omega : 0 < 256)]
        calc n < 256 ^ (k + 1) := h
        _ = 256 ^ k * 256 := by ring
      have := ih (n / 256) hk1 hdiv
      simp only [List.length_append, List.length_cons, List.length_nil]
      omega

/-! ## RLP items (`@ethereumjs/rlp`)

An RLP input is a byte string or a (nested) list of inputs. `encodeItem` is the
standard RLP serialization; `decodeItem` parses one item off the front of a byte
stream, with a fuel argument that bounds the recursion depth. -/

inductive Item where
  | bytes : List Nat → Item
  | list : List Item → Item

/-- RLP length prefix: `offset` is `0x80` for strings and `0xc0` for lists. -/
def encodeWithLength (offset : Nat) (payload : List Nat) : List Nat :=
  if payload.length ≤ 55 then (offset + payload.length) :: payload
  else (offset + 55 + (natToBytesBE payload.length).length) :: (natToBytesBE payload.length ++ payload)

/-- RLP encoding of a byte string: a single byte below `0x80` encodes as itself. -/
def encodeBytes (bs : List Nat) : List Nat :=
  match bs with
  | [b] => if b < 128 then [b] else encodeWithLength 128 [b]
  | _ => encodeWithLength 128 bs

mutual
def encodeItem : Item → List Nat
  | .bytes bs => encodeBytes bs
  | .list items => encodeWithLength 192 (encodeItems items)
def encodeItems : List Item → List Nat
  | [] => []
  | x :: xs => encodeItem x ++ encodeItems xs
end

mutual
/-- Real RLP assumes every length fits in 8 length bytes (`< 2^64`); the
decoder's tag ranges rely on it. -/
def itemOk : Item → Bool
  | .bytes bs => decide (bs.length < 2 ^ 64)
  | .list items => itemsOk items && decide ((encodeItems items).length < 2 ^ 64)
def itemsOk : List Item → Bool
  | [] => true
  | x :: xs => itemOk x && itemsOk xs
end

mutual
/-- Parse one RLP item off the front of the stream; returns the item and the rest. -/
def decodeItem : Nat → List Nat → Option (Item × List Nat)
  | 0, _ => none
  | _ + 1, [] => none
  | fuel + 1, b :: bs =>
    if b < 128 then some (.bytes [b], bs)
    else if b < 184 then
      let n := b - 128
      if n ≤ bs.length then some (.bytes (bs.take n), bs.drop n) else none
    else if b < 192 then
      let ll := b - 183
      if ll ≤ bs.length then
        let n := bytesToNat (bs.take ll)
        let rest := bs.drop ll
        if n ≤ rest.length then some (.bytes (rest.take n), rest.drop n) else none
      else none
    else if b < 248 then
      let n := b - 192
      if n ≤ bs.length then
        match decodeItems fuel (bs.take n) with
        | some items => some (.list items, bs.drop n)
        | none => none
      else none
    else
      let ll := b - 247
      if ll ≤ bs.length then
        let n := bytesToNat (bs.take ll)
        let rest := bs.drop ll
        if n ≤ rest.length then
          match decodeItems fuel (rest.take n) with
          | some items => some (.list items, rest.drop n)
          | none => none
        else none
      else none
/-- Parse RLP items until the stream is exhausted. -/
def decodeItems : Nat → List Nat → Option (List Item)
  | _, [] => some []
  | 0, _ :: _ => none
  | fuel + 1, b :: bs =>
    match decodeItem fuel (b :: bs) with
    | some (it, rest) =>
      match decodeItems fuel rest with
      | some items => some (it :: items)
      | none => none
    | none => none
end

theorem encodeWithLength_length_pos (offset : Nat) (payload : List Nat) :
    0 < (encodeWithLength offset payload).length := by
  rw [encodeWithLength]
  split <;> simp

theorem encodeBytes_length_pos (bs : List Nat) : 0 < (encodeBytes bs).length := by
  match bs with
  | [] => simp [encodeBytes, encodeWithLength]
  | [b] =>
    simp only [encodeBytes]
    split
    · simp
    · exact encodeWithLength_length_pos _ _
  | b1 :: b2 :: rest =>
    simp only [encodeBytes]
    exact encodeWithLength_length_pos _ _

theorem encodeItem_length_pos (x : Item) : 0 < (encodeItem x).length := by
  match x with
  | .bytes bs =>
    rw [encodeItem]
    exact encodeBytes_length_pos bs
  | .list items =>
    rw [encodeItem]
    exact encodeWithLength_length_pos _ _

theorem encodeItems_cons (x : Item) (xs : List Item) :
    encodeItems (x :: xs) = encodeItem x ++ encodeItems xs := rfl

/-- Decoding inverts encoding: joint statement for items and item lists, by
induction on the decoder's fuel. The fuel needed is bounded by twice the
length of the encoding. -/
theorem rlp_decode_encode_aux : ∀ fuel : Nat,
    (∀ x : Item, itemOk x = true → 2 * (encodeItem x).length ≤ fuel + 1 →
      ∀ rest, decodeItem fuel (encodeItem x ++ rest) = some (x, rest))
    ∧ (∀ xs : List Item, itemsOk xs = true → 2 * (encodeItems xs).length ≤ fuel →
      decodeItems fuel (encodeItems xs) = some xs) := by
  intro fuel
  induction fuel with
  | zero =>
    constructor
    · intro x _ hlen _
      have := encodeItem_length_pos x
      omega
    · intro xs _ hlen
      match xs with
      | [] => rfl
      | x :: xs' =>
        rw [encodeItems_cons] at hlen
        have := encodeItem_length_pos x
        simp only [List.length_append] at hlen
        omega
  | succ fuel ih =>
    constructor
    · intro x hok hlen rest
      match x with
      | .bytes bs =>
        rw [encodeItem] at hlen ⊢
        match bs with
        | [] =>
          show decodeItem (fuel + 1) ((128 + ([] : List Nat).length) :: ([] ++ rest)) = _
          simp only [List.length_nil, List.nil_append, Nat.add_zero]
          rw [decodeItem]
          rw [if_neg (by omega), if_pos (by omega)]
          simp
        | [b] =>
          by_cases hb : b < 128
          · simp only [encodeBytes, if_pos hb]
            rw [List.cons_append, decodeItem, if_pos hb]
            simp
          · simp only [encodeBytes, if_neg hb, encodeWithLength]
            rw [if_pos (by simp)]
            simp only [List.length_singleton]
            rw [List.cons_append, List.cons_append, decodeItem]
            rw [if_neg (by omega), if_pos (by omega)]
            simp
        | b1 :: b2 :: bs' =>
          simp only [encodeBytes, encodeWithLength]
          rw [itemOk] at hok
          have hok' : (b1 :: b2 :: bs').length < 2 ^ 64 := by
            simpa using hok
          by_cases h55 : (b1 :: b2 :: bs').length ≤ 55
          · rw [if_pos h55]
            rw [List.cons_append, decodeItem]
            rw [if_neg (by omega), if_pos (by omega)]
            simp only
            have hn : 128 + (b1 :: b2 :: bs').length - 128 = (b1 :: b2 :: bs').length := by omega
            rw [hn]
            rw [if_pos (by simp)]
            rw [List.take_left, List.drop_left]
          · rw [if_neg h55]
            have hll1 : 1 ≤ (natToBytesBE (b1 :: b2 :: bs').length).length := by
              have := natToBytesBE_ne_nil (b1 :: b2 :: bs').length
              cases hx : natToBytesBE (b1 :: b2 :: bs').length with
              | nil => exact absurd hx this
              | cons a as => simp
            have hll8 : (natToBytesBE (b1 :: b2 :: bs').length).length ≤ 8 :=
              natToBytesBE_length_le _ 8 (by omega) (by norm_num at hok' ⊢; omega)
            rw [List.cons_append, decodeItem]
            rw [if_neg (by omega), if_neg (by omega), if_pos (by omega)]
            simp only
            have hll : 128 + 55 + (natToBytesBE (b1 :: b2 :: bs').length).length - 183
                = (natToBytesBE (b1 :: b2 :: bs').length).length := by omega
            rw [hll]
            rw [List.append_assoc]
            rw [if_pos (by simp only [List.length_append]; omega)]
            rw [List.take_left, List.drop_left]
            rw [bytesToNat_natToBytesBE]
            rw [if_pos (by simp only [List.length_append]; omega)]
            rw [List.take_left, List.drop_left]
      | .list items =>
        rw [encodeItem] at hlen ⊢
        rw [itemOk] at hok
        have hoks : itemsOk items = true := by
          simp only [Bool.and_eq_true] at hok
          exact hok.1
        simp only [encodeWithLength] at hlen ⊢
        by_cases h55 : (encodeItems items).length ≤ 55
        · rw [if_pos h55] at hlen ⊢
          rw [List.cons_append, decodeItem]
          rw [if_neg (by omega), if_neg (by omega), if_neg (by omega), if_pos (by omega)]
          simp only
          have hn : 192 + (encodeItems items).length - 192 = (encodeItems items).length := by
            omega
          rw [hn]
          rw [if_pos (by simp)]
          rw [List.take_left, List.drop_left]
          rw [(ih.2 items hoks (by simp only [List.length_cons] at hlen; omega))]
        · rw [if_neg h55] at hlen ⊢
          have hok' : (encodeItems items).length < 2 ^ 64 := by
            simp only [Bool.and_eq_true, decide_eq_true_eq] at hok
            exact hok.2
          have hll1 : 1 ≤ (natToBytesBE (encodeItems items).length).length := by
            have := natToBytesBE_ne_nil (encodeItems items).length
            cases hx : natToBytesBE (encodeItems items).length with
            | nil => exact absurd hx this
            | cons a as => simp
          have hll8 : (natToBytesBE (encodeItems items).length).length ≤ 8 :=
            natToBytesBE_length_le _ 8 (by omega) (by norm_num at hok' ⊢; omega)
          rw [List.cons_append, decodeItem]
          rw [if_neg (by omega), if_neg (by omega), if_neg (by omega), if_neg (by omega)]
          simp only
          have hll : 192 + 55 + (natToBytesBE (encodeItems items).length).length - 247
              = (natToBytesBE (encodeItems items).length).length := by omega
          rw [hll]
          rw [List.append_assoc]
          rw [if_pos (by simp only [List.length_append]; omega)]
          rw [List.take_left, List.drop_left]
          rw [bytesToNat_natToBytesBE]
          rw [if_pos (by simp only [List.length_append]; omega)]
          rw [List.take_left, List.drop_left]
          rw [(ih.2 items hoks (by simp only [List.length_cons, List.length_append] at hlen; omega))]
    · intro xs hok hlen
      match xs with
      | [] => rfl
      | x :: xs' =>
        rw [encodeItems_cons] at hlen ⊢
        rw [itemsOk] at hok
        simp only [Bool.and_eq_true] at hok
        have hpos := encodeItem_length_pos x
        obtain ⟨c, cs, hc⟩ := List.exists_cons_of_ne_nil
          (show encodeItem x ++ encodeItems xs' ≠ [] by
            intro hnil
            rw [List.append_eq_nil] at hnil
            rw [hnil.1] at hpos
            simp at hpos)
        rw [hc, decodeItems, ← hc]
        simp only [List.length_append] at hlen
        simp only [ih.1 x hok.1 (by omega) (encodeItems xs'), ih.2 xs' hok.2 (by omega)]

/-- `RLP.decode` of a whole buffer: parse one item and demand no trailing bytes. -/
def decodeTop (bs : List Nat) : Option Item :=
  match decodeItem (2 * bs.length) bs with
  | some (it, []) => some it
  | _ => none

theorem decodeTop_encodeItem (x : Item) (hok : itemOk x = true) :
    decodeTop (encodeItem x) = some x := by
  rw [decodeTop]
  have h := (rlp_decode_encode_aux (2 * (encodeItem x).length)).1 x hok (by omega) []
  rw [List.append_nil] at h
  rw [h]

/-! ## Receipts and logs (receipt.ts storage encodings)

A `Log` is the tuple `[address, topics, data]`; a `TxReceipt` is pre-Byzantium
(`stateRoot`, 32 bytes) or post-Byzantium (`status`). `ReceiptsManager.rlp`
encodes a receipt as `[stateRootOrStatus, cumulativeGasUsed, logsRlp]` where
`logsRlp` is itself the RLP byte string of the log list (the inner `rlp` call
produces a Buffer which the outer encoding treats as a string). -/

structure LogE where
  address : List Nat
  topics : List (List Nat)
  data : List Nat
deriving DecidableEq, Repr

inductive Receipt where
  | preByzantium (stateRoot : List Nat) (cumulativeBlockGasUsed : Nat) (logs : List LogE)
  | postByzantium (status : Nat) (cumulativeBlockGasUsed : Nat) (logs : List LogE)
deriving DecidableEq, Repr

def Receipt.logs : Receipt → List LogE
  | .preByzantium _ _ ls => ls
  | .postByzantium _ _ ls => ls

def Receipt.cumulativeBlockGasUsed : Receipt → Nat
  | .preByzantium _ g _ => g
  | .postByzantium _ g _ => g

/-- `(r as PreByzantiumTxReceipt).stateRoot ?? intToBuffer((r as PostByzantiumTxReceipt).status)` -/
def receiptFirstField : Receipt → List Nat
  | .preByzantium sr _ _ => sr
  | .postByzantium st _ _ => intToBuffer st

def logToItem (l : LogE) : Item :=
  .list [.bytes l.address, .list (l.topics.map Item.bytes), .bytes l.data]

/-- `this.rlp(RlpConvert.Encode, RlpType.Logs, r.logs)` -/
def logsEncoding (logs : List LogE) : List Nat :=
  encodeItem (.list (logs.map logToItem))

def receiptToItem (r : Receipt) : Item :=
  .list [.bytes (receiptFirstField r),
         .bytes (bigIntToBuffer r.cumulativeBlockGasUsed),
         .bytes (logsEncoding r.logs)]

/-- `this.rlp(RlpConvert.Encode, RlpType.Receipts, receipts)` -/
def encodeReceipts (rs : List Receipt) : List Nat :=
  encodeItem (.list (rs.map receiptToItem))

/-- Option-valued map, short-circuiting on the first failure. -/
def mapOption {α β : Type} (g : α → Option β) : List α → Option (List β)
  | [] => some []
  | a :: as =>
    match g a with
    | some b =>
      match mapOption g as with
      | some bs => some (b :: bs)
      | none => none
    | none => none

def itemBytes : Item → Option (List Nat)
  | .bytes bs => some bs
  | .list _ => none

def decodeLogItem : Item → Option LogE
  | .list [.bytes a, .list ts, .bytes d] =>
    match mapOption itemBytes ts with
    | some topics => some ⟨a, topics, d⟩
    | none => none
  | _ => none

/-- `this.rlp(RlpConvert.Decode, RlpType.Logs, value)` -/
def decodeLogsBytes (bs : List Nat) : Option (List LogE) :=
  match decodeTop bs with
  | some (.list logItems) => mapOption decodeLogItem logItems
  | _ => none

/-- Decode one stored receipt: `len(firstField) == 32` selects pre-Byzantium. -/
def decodeReceiptItem : Item → Option Receipt
  | .list [.bytes f0, .bytes f1, .bytes f2] =>
    match decodeLogsBytes f2 with
    | some logs =>
      if f0.length = 32 then some (.preByzantium f0 (bytesToNat f1) logs)
      else some (.postByzantium (bytesToNat f0) (bytesToNat f1) logs)
    | none => none
  | _ => none

/-- `this.rlp(RlpConvert.Decode, RlpType.Receipts, encoded)` -/
def decodeReceipts (bs : List Nat) : Option (List Receipt) :=
  match decodeTop bs with
  | some (.list items) => mapOption decodeReceiptItem items
  | _ => none

/-- Shape conditions of the stored receipt forms: a 32-byte `stateRoot`
pre-Byzantium, a status of `0` or `1` post-Byzantium. -/
def receiptVariantOk : Receipt → Bool
  | .preByzantium sr _ _ => decide (sr.length = 32)
  | .postByzantium st _ _ => decide (st ≤ 1)

def receiptOk (r : Receipt) : Bool :=
  receiptVariantOk r && itemOk (Item.list (r.logs.map logToItem)) && itemOk (receiptToItem r)

def receiptsWellFormed (rs : List Receipt) : Bool :=
  rs.all receiptOk && itemOk (Item.list (rs.map receiptToItem))

theorem mapOption_map {α β : Type} (g : β → Option α) (f : α → β) (l : List α)
    (h : ∀ a ∈ l, g (f a) = some a) : mapOption g (l.map f) = some l := by
  induction l with
  | nil => rfl
  | cons a as ih =>
    simp only [List.map_cons, mapOption]
    rw [h a (by simp), ih (fun b hb => h b (by simp [hb]))]

theorem mapOption_itemBytes_map (ts : List (List Nat)) :
    mapOption itemBytes (ts.map Item.bytes) = some ts :=
  mapOption_map itemBytes Item.bytes ts (fun _ _ => rfl)

theorem decodeLogItem_logToItem (l : LogE) : decodeLogItem (logToItem l) = some l := by
  simp only [logToItem, decodeLogItem, mapOption_itemBytes_map]

theorem decodeLogsBytes_logsEncoding (logs : List LogE)
    (hok : itemOk (Item.list (logs.map logToItem)) = true) :
    decodeLogsBytes (logsEncoding logs) = some logs := by
  rw [logsEncoding, decodeLogsBytes, decodeTop_encodeItem _ hok]
  exact mapOption_map decodeLogItem logToItem logs (fun a _ => decodeLogItem_logToItem a)

theorem natToBytesBE_small (n : Nat) (h : n < 256) : natToBytesBE n = [n] := by
  rw [natToBytesBE_eq, if_pos h]

theorem bytesToNat_intToBuffer (n : Nat) : bytesToNat (intToBuffer n) = n :=
  bytesToNat_natToBytesBE n

theorem decodeReceiptItem_receiptToItem (r : Receipt) (hok : receiptOk r = true) :
    decodeReceiptItem (receiptToItem r) = some r := by
  rw [receiptOk, Bool.and_eq_true, Bool.and_eq_true] at hok
  obtain ⟨⟨hvar, hlogs⟩, _⟩ := hok
  match r with
  | .preByzantium sr g ls =>
    rw [receiptVariantOk, decide_eq_true_eq] at hvar
    simp only [receiptToItem, receiptFirstField, Receipt.logs, Receipt.cumulativeBlockGasUsed,
      decodeReceiptItem]
    rw [decodeLogsBytes_logsEncoding ls hlogs]
    simp only [if_pos hvar, bigIntToBuffer, bytesToNat_natToBytesBE]
  | .postByzantium st g ls =>
    rw [receiptVariantOk, decide_eq_true_eq] at hvar
    simp only [receiptToItem, receiptFirstField, Receipt.logs, Receipt.cumulativeBlockGasUsed,
      decodeReceiptItem]
    rw [decodeLogsBytes_logsEncoding ls hlogs]
    have hst : intToBuffer st = [st] := natToBytesBE_small st (by omega)
    rw [hst]
    simp only [List.length_singleton]
    rw [if_neg (by omega)]
    simp only [bigIntToBuffer, bytesToNat_natToBytesBE]
    have : bytesToNat [st] = st := by simp [bytesToNat]
    rw [this]

theorem decodeReceipts_encodeReceipts (rs : List Receipt)
    (h : receiptsWellFormed rs = true) :
    decodeReceipts (encodeReceipts rs) = some rs := by
  rw [receiptsWellFormed, Bool.and_eq_true] at h
  rw [decodeReceipts, encodeReceipts, decodeTop_encodeItem _ h.2]
  refine mapOption_map decodeReceiptItem receiptToItem rs (fun r hr => ?_)
  refine decodeReceiptItem_receiptToItem r ?_
  rw [List.all_eq_true] at h
  exact h.1 r hr

/-- C4: RLP round-trip for receipt lists, with the variant of each decoded
receipt selected by whether the decoded first field has length 32. The
well-formedness hypothesis states exactly the claim's shape preconditions
(32-byte `stateRoot` pre-Byzantium, integer status post-Byzantium) plus the
RLP length bounds (every encoded length below `2^64`). -/
theorem receipts_rlp_roundtrip (rs : List Receipt) (h : receiptsWellFormed rs = true) :
    decodeReceipts (encodeReceipts rs) = some rs :=
  decodeReceipts_encodeReceipts rs h

/-- Witness for C4 at a concrete two-receipt list, one receipt per variant. -/
theorem receipts_rlp_roundtrip_witness :
    receiptsWellFormed [Receipt.preByzantium (List.replicate 32 7) 21000 [⟨[0xaa], [[1], [2]], [3]⟩],
      Receipt.postByzantium 1 42000 [⟨[0xbb], [], []⟩]] = true
    ∧ decodeReceipts (encodeReceipts
        [Receipt.preByzantium (List.replicate 32 7) 21000 [⟨[0xaa], [[1], [2]], [3]⟩],
         Receipt.postByzantium 1 42000 [⟨[0xbb], [], []⟩]]) =
      some [Receipt.preByzantium (List.replicate 32 7) 21000 [⟨[0xaa], [[1], [2]], [3]⟩],
            Receipt.postByzantium 1 42000 [⟨[0xbb], [], []⟩]] :=
  ⟨by decide, receipts_rlp_roundtrip _ (by decide)⟩

/-! ## The ReceiptsManager store model

The metaDB is a key-value store; `DBKey.Receipts` and `DBKey.TxHash` are separate
key spaces, modelled as two maps. Blocks, transactions and the chain are consumed
through the narrow interface `receipt.ts` uses: `block.hash()`, `block.header.number`,
`block.transactions`, `tx.hash()`, `chain.headers.height`, `chain.getBlock`. -/

structure Tx where
  hash : List Nat
deriving DecidableEq, Repr

structure Block where
  number : Int
  hash : List Nat
  transactions : List Tx
deriving DecidableEq, Repr

structure Chain where
  headersHeight : Int
  getBlock : Int → Option Block

/-- The manager's limit fields and the config's `txLookupLimit`. -/
structure Cfg where
  GET_LOGS_LIMIT : Nat := 10000
  GET_LOGS_LIMIT_MEGABYTES : Nat := 150
  txLookupLimit : Nat := 2350000

structure DB where
  receipts : List Nat → Option (List Nat)
  txHash : List Nat → Option (List Nat)

def putKV (m : List Nat → Option (List Nat)) (k v : List Nat) :
    List Nat → Option (List Nat) :=
  fun q => if q = k then some v else m q

def delKV (m : List Nat → Option (List Nat)) (k : List Nat) :
    List Nat → Option (List Nat) :=
  fun q => if q = k then none else m q

/-- `this.rlp(RlpConvert.Encode, RlpType.TxHash, [block.hash(), i])` -/
def encodeTxHashIndex (blockHash : List Nat) (txIndex : Nat) : List Nat :=
  encodeItem (.list [.bytes blockHash, .bytes (intToBuffer txIndex)])

/-- `this.rlp(RlpConvert.Decode, RlpType.TxHash, encoded)` -/
def decodeTxHashIndex (bs : List Nat) : Option (List Nat × Nat) :=
  match decodeTop bs with
  | some (.list [.bytes blockHash, .bytes txIndex]) => some (blockHash, bytesToNat txIndex)
  | _ => none

/-- The `for (const [i, tx] of block.transactions.entries())` save loop. -/
def writeTxIndexes (blockHash : List Nat) :
    List Tx → Nat → (List Nat → Option (List Nat)) → List Nat → Option (List Nat)
  | [], _, m => m
  | tx :: txs, i, m => writeTxIndexes blockHash txs (i + 1) (putKV m tx.hash (encodeTxHashIndex blockHash i))

/-- The `IndexOperation.Delete` loop. -/
def deleteTxIndexes :
    List Tx → (List Nat → Option (List Nat)) → List Nat → Option (List Nat)
  | [], m => m
  | tx :: txs, m => deleteTxIndexes txs (delKV m tx.hash)

/-- The pruning pass of `updateIndex(Save, TxHash, block)`: when `txLookupLimit > 0`,
remove the tx hash indexes of the block one past the limit. A missing block at the
pruning height makes the source's (fire-and-forget) delete pass fail; the store is
then left as is. -/
def pruneTxIndexes (cfg : Cfg) (chain : Chain) (db : DB) : DB :=
  if 0 < cfg.txLookupLimit then
    if chain.headersHeight - (cfg.txLookupLimit : Int) < 0 then db
    else
      match chain.getBlock (chain.headersHeight - (cfg.txLookupLimit : Int)) with
      | some blockDelIndexes =>
        { db with txHash := deleteTxIndexes blockDelIndexes.transactions db.txHash }
      | none => db
  else db

/-- `updateIndex(IndexOperation.Save, IndexType.TxHash, block)`. -/
def updateIndexSave (cfg : Cfg) (chain : Chain) (db : DB) (block : Block) : DB :=
  pruneTxIndexes cfg chain
    (if cfg.txLookupLimit = 0 ∨ chain.headersHeight - (cfg.txLookupLimit : Int) < block.number
     then { db with txHash := writeTxIndexes block.hash block.transactions 0 db.txHash }
     else db)

/-- `saveReceipts(block, receipts)`. -/
def saveReceipts (cfg : Cfg) (chain : Chain) (db : DB) (block : Block)
    (receipts : List Receipt) : DB :=
  updateIndexSave cfg chain
    { db with receipts := putKV db.receipts block.hash (encodeReceipts receipts) } block

/-- `getIndex(IndexType.TxHash, txHash)`. -/
def getIndex (db : DB) (txHash : List Nat) : Option (List Nat × Nat) :=
  match db.txHash txHash with
  | none => none
  | some encoded => decodeTxHashIndex encoded

/-- `getReceipts(blockHash)` (without the optional bloom / txType annotations,
which mutate fields not part of the stored record). A malformed stored value
would make the source throw; every theorem below only ever stores encoder
output, for which decoding succeeds. -/
def getReceipts (db : DB) (blockHash : List Nat) : List Receipt :=
  match db.receipts blockHash with
  | none => []
  | some encoded => (decodeReceipts encoded).getD []

/-- `getReceiptByTxHash(txHash)`: resolve the index, load the block's receipts,
accumulate `logIndex` over the receipts before `txIndex`. -/
def getReceiptByTxHash (db : DB) (txHash : List Nat) :
    Option (Receipt × List Nat × Nat × Nat) :=
  match getIndex db txHash with
  | none => none
  | some (blockHash, txIndex) =>
    let receipts := getReceipts db blockHash
    if receipts.length = 0 then none
    else
      match receipts[txIndex]? with
      | some receipt =>
        some (receipt, blockHash, txIndex,
          ((receipts.take txIndex).map fun r => r.logs.length).sum)
      | none => none

theorem encodeBytes_length_le (bs : List Nat) :
    (encodeBytes bs).length ≤ bs.length + 1 + (natToBytesBE bs.length).length := by
  have hne := natToBytesBE_ne_nil bs.length
  have hpos : 0 < (natToBytesBE bs.length).length := by
    cases hx : natToBytesBE bs.length with
    | nil => exact absurd hx hne
    | cons a as => simp
  match bs with
  | [b] =>
    simp only [encodeBytes]
    split
    · simp only [List.length_singleton]
      omega
    · rw [encodeWithLength]
      split
      · simp only [List.length_cons, List.length_singleton]
        omega
      · simp at *
  | [] =>
    simp only [encodeBytes, encodeWithLength]
    split
    · simp
    · simp at *
  | b1 :: b2 :: r =>
    simp only [encodeBytes, encodeWithLength]
    split
    · simp only [List.length_cons]
      omega
    · simp only [List.length_cons, List.length_append]
      omega

theorem encodeBytes_eq_of_length_ne_one (bs : List Nat) (h : bs.length ≠ 1) :
    encodeBytes bs = encodeWithLength 128 bs := by
  match bs with
  | [] => rfl
  | [b] => simp at h
  | b1 :: b2 :: r => rfl

theorem decodeTxHashIndex_encodeTxHashIndex (bh : List Nat) (i : Nat)
    (hbh : bh.length = 32) (hi : i < 2 ^ 64) :
    decodeTxHashIndex (encodeTxHashIndex bh i) = some (bh, i) := by
  have hilen : (intToBuffer i).length ≤ 8 :=
    natToBytesBE_length_le i 8 (by omega) (by norm_num at hi ⊢; omega)
  have hienc : (encodeBytes (intToBuffer i)).length ≤ 10 := by
    have h1 := encodeBytes_length_le (intToBuffer i)
    have h2 : natToBytesBE (intToBuffer i).length = [(intToBuffer i).length] :=
      natToBytesBE_small _ (by omega)
    rw [h2] at h1
    simp only [List.length_singleton] at h1
    omega
  have hbenc : (encodeBytes bh).length = 33 := by
    rw [encodeBytes_eq_of_length_ne_one bh (by omega), encodeWithLength, if_pos (by omega)]
    simp only [List.length_cons]
    omega
  have hok : itemOk (Item.list [.bytes bh, .bytes (intToBuffer i)]) = true := by
    rw [itemOk]
    simp only [itemsOk, itemOk, Bool.and_eq_true, decide_eq_true_eq]
    refine ⟨⟨?_, ?_, ?_⟩, ?_⟩
    · omega
    · omega
    · trivial
    · show (encodeItems [.bytes bh, .bytes (intToBuffer i)]).length < 2 ^ 64
      have : encodeItems [.bytes bh, .bytes (intToBuffer i)] =
          encodeBytes bh ++ (encodeBytes (intToBuffer i) ++ []) := rfl
      rw [this]
      simp only [List.length_append, List.length_nil]
      omega
  rw [encodeTxHashIndex, decodeTxHashIndex, decodeTop_encodeItem _ hok]
  simp only [bytesToNat_intToBuffer]

theorem writeTxIndexes_lookup_notmem (bh : List Nat) (txs : List Tx) :
    ∀ (i : Nat) (m : List Nat → Option (List Nat)) (k : List Nat),
      k ∉ txs.map Tx.hash → writeTxIndexes bh txs i m k = m k := by
  induction txs with
  | nil => intro i m k _; rfl
  | cons t ts ih =>
    intro i m k hk
    simp only [List.map_cons, List.mem_cons] at hk
    push_neg at hk
    rw [writeTxIndexes, ih (i + 1) _ k hk.2, putKV, if_neg hk.1]

theorem writeTxIndexes_lookup (bh : List Nat) (txs : List Tx) :
    ∀ (i j : Nat) (m : List Nat → Option (List Nat)) (tx : Tx),
      txs[j]? = some tx → (txs.map Tx.hash).Nodup →
      writeTxIndexes bh txs i m tx.hash = some (encodeTxHashIndex bh (i + j)) := by
  induction txs with
  | nil => intro i j m tx hj _; simp at hj
  | cons t ts ih =>
    intro i j m tx hj hnd
    simp only [List.map_cons, List.nodup_cons] at hnd
    match j with
    | 0 =>
      simp only [List.getElem?_cons_zero, Option.some.injEq] at hj
      subst hj
      rw [writeTxIndexes, writeTxIndexes_lookup_notmem bh ts (i + 1) _ t.hash hnd.1]
      rw [putKV, if_pos rfl, Nat.add_zero]
    | j + 1 =>
      simp only [List.getElem?_cons_succ] at hj
      rw [writeTxIndexes]
      have := ih (i + 1) j (putKV m t.hash (encodeTxHashIndex bh i)) tx hj hnd.2
      rw [this]
      congr 2
      omega

theorem deleteTxIndexes_lookup_notmem (txs : List Tx) :
    ∀ (m : List Nat → Option (List Nat)) (k : List Nat),
      k ∉ txs.map Tx.hash → deleteTxIndexes txs m k = m k := by
  induction txs with
  | nil => intro m k _; rfl
  | cons t ts ih =>
    intro m k hk
    simp only [List.map_cons, List.mem_cons] at hk
    push_neg at hk
    rw [deleteTxIndexes, ih _ k hk.2, delKV, if_neg hk.1]

theorem deleteTxIndexes_lookup_mem (txs : List Tx) :
    ∀ (m : List Nat → Option (List Nat)) (k : List Nat),
      k ∈ txs.map Tx.hash → deleteTxIndexes txs m k = none := by
  induction txs with
  | nil => intro m k hk; simp at hk
  | cons t ts ih =>
    intro m k hk
    by_cases hmem : k ∈ ts.map Tx.hash
    · rw [deleteTxIndexes, ih _ k hmem]
    · simp only [List.map_cons, List.mem_cons] at hk
      have hkt : k = t.hash := by tauto
      rw [deleteTxIndexes, deleteTxIndexes_lookup_notmem ts _ k hmem, delKV, if_pos hkt]

theorem pruneTxIndexes_receipts (cfg : Cfg) (chain : Chain) (db : DB) :
    (pruneTxIndexes cfg chain db).receipts = db.receipts := by
  rw [pruneTxIndexes]
  split
  · split
    · rfl
    · cases chain.getBlock (chain.headersHeight - (cfg.txLookupLimit : Int)) <;> rfl
  · rfl

theorem updateIndexSave_receipts (cfg : Cfg) (chain : Chain) (db : DB) (block : Block) :
    (updateIndexSave cfg chain db block).receipts = db.receipts := by
  rw [updateIndexSave, pruneTxIndexes_receipts]
  split <;> rfl

/-- C3: after `saveReceipts(block, receipts)`, for any position `i` whose tx hash
index was written (and survived), `getReceiptByTxHash` of that transaction's hash
returns `(receipts[i], block.hash, i, Σ_{j<i} len(receipts[j].logs))`. -/
theorem saveReceipts_getReceiptByTxHash_roundtrip
    (cfg : Cfg) (chain : Chain) (db : DB) (block : Block) (receipts : List Receipt)
    (i : Nat) (tx : Tx) (rc : Receipt)
    (htx : block.transactions[i]? = some tx)
    (hrc : receipts[i]? = some rc)
    (hwf : receiptsWellFormed receipts = true)
    (hbh : block.hash.length = 32)
    (hi64 : i < 2 ^ 64)
    (hidx : (saveReceipts cfg chain db block receipts).txHash tx.hash
      = some (encodeTxHashIndex block.hash i)) :
    getReceiptByTxHash (saveReceipts cfg chain db block receipts) tx.hash =
      some (rc, block.hash, i, ((receipts.take i).map fun r => r.logs.length).sum) := by
  have hlen : i < receipts.length := by
    by_contra hge
    push_neg at hge
    rw [List.getElem?_eq_none hge] at hrc
    exact Option.noConfusion hrc
  have hrec : getReceipts (saveReceipts cfg chain db block receipts) block.hash = receipts := by
    rw [getReceipts]
    have hstore : (saveReceipts cfg chain db block receipts).receipts block.hash
        = some (encodeReceipts receipts) := by
      rw [saveReceipts, updateIndexSave_receipts]
      show putKV db.receipts block.hash (encodeReceipts receipts) block.hash = _
      rw [putKV, if_pos rfl]
    rw [hstore]
    simp only [decodeReceipts_encodeReceipts receipts hwf, Option.getD_some]
  simp only [getReceiptByTxHash, getIndex, hidx,
    decodeTxHashIndex_encodeTxHashIndex block.hash i hbh hi64, hrec, hrc]
  rw [if_neg (by omega)]

/-- Witness for C3 on a two-transaction block, reading back the second receipt. -/
theorem saveReceipts_getReceiptByTxHash_roundtrip_witness :
    getReceiptByTxHash
      (saveReceipts ⟨10000, 150, 0⟩ ⟨0, fun _ => none⟩ ⟨fun _ => none, fun _ => none⟩
        ⟨1, List.replicate 32 5, [⟨[1]⟩, ⟨[2]⟩]⟩
        [.postByzantium 1 100 [⟨[7], [], []⟩], .postByzantium 0 200 [⟨[8], [], []⟩]]) [2] =
      some (.postByzantium 0 200 [⟨[8], [], []⟩], List.replicate 32 5, 1, 1) := by
  have h := saveReceipts_getReceiptByTxHash_roundtrip
    ⟨10000, 150, 0⟩ ⟨0, fun _ => none⟩ ⟨fun _ => none, fun _ => none⟩
    ⟨1, List.replicate 32 5, [⟨[1]⟩, ⟨[2]⟩]⟩
    [.postByzantium 1 100 [⟨[7], [], []⟩], .postByzantium 0 200 [⟨[8], [], []⟩]]
    1 ⟨[2]⟩ (.postByzantium 0 200 [⟨[8], [], []⟩])
    (by decide) (by decide) (by decide) (by decide) (by decide) (by decide)
  exact h.trans (by decide)

/-- C5: with `txLookupLimit = L > 0` and the chain head at height `h`, saving a
block deletes the tx hash indexes of the block at height `h - L` (when that
height is non-negative and the block is available); and when `L = 0` or the
block's number exceeds `h - L`, the index `TxHash:{tx.hash} → (block.hash, i)`
is written for each transaction `i` of the saved block (provided the block's tx
hashes are distinct and not also scheduled for deletion). -/
theorem saveReceipts_txLookupLimit_gc
    (cfg : Cfg) (chain : Chain) (db : DB) (block : Block) (receipts : List Receipt) :
    (∀ old tx, 0 < cfg.txLookupLimit →
      0 ≤ chain.headersHeight - (cfg.txLookupLimit : Int) →
      chain.getBlock (chain.headersHeight - (cfg.txLookupLimit : Int)) = some old →
      tx ∈ old.transactions →
      (saveReceipts cfg chain db block receipts).txHash tx.hash = none)
    ∧ (∀ i tx,
      (cfg.txLookupLimit = 0 ∨ chain.headersHeight - (cfg.txLookupLimit : Int) < block.number) →
      block.transactions[i]? = some tx →
      (block.transactions.map Tx.hash).Nodup →
      (∀ old, chain.getBlock (chain.headersHeight - (cfg.txLookupLimit : Int)) = some old →
        tx.hash ∉ old.transactions.map Tx.hash) →
      (saveReceipts cfg chain db block receipts).txHash tx.hash =
        some (encodeTxHashIndex block.hash i)) := by
  constructor
  · intro old tx hL hle hgb hmem
    rw [saveReceipts, updateIndexSave, pruneTxIndexes]
    rw [if_pos hL, if_neg (by omega)]
    simp only [hgb]
    exact deleteTxIndexes_lookup_mem old.transactions _ tx.hash
      (List.mem_map_of_mem Tx.hash hmem)
  · intro i tx hwithin htx hnd hnotold
    have hwrite : ∀ m : List Nat → Option (List Nat),
        writeTxIndexes block.hash block.transactions 0 m tx.hash =
          some (encodeTxHashIndex block.hash i) := by
      intro m
      have := writeTxIndexes_lookup block.hash block.transactions 0 i m tx htx hnd
      simpa using this
    rw [saveReceipts, updateIndexSave, if_pos hwithin, pruneTxIndexes]
    by_cases hL : 0 < cfg.txLookupLimit
    · rw [if_pos hL]
      by_cases hneg : chain.headersHeight - (cfg.txLookupLimit : Int) < 0
      · rw [if_pos hneg]
        exact hwrite _
      · rw [if_neg hneg]
        cases hgb : chain.getBlock (chain.headersHeight - (cfg.txLookupLimit : Int)) with
        | none => exact hwrite _
        | some old =>
          simp only []
          rw [deleteTxIndexes_lookup_notmem old.transactions _ tx.hash (hnotold old hgb)]
          exact hwrite _
    · rw [if_neg hL]
      exact hwrite _

/-- Witness for C5: `L = 1`, head at height 5, block at height 6 saved; the
index of the only transaction of the block at height 4 is deleted, the saved
block's transaction gets an index. -/
theorem saveReceipts_txLookupLimit_gc_witness :
    (saveReceipts ⟨10000, 150, 1⟩ ⟨5, fun _ => some ⟨4, List.replicate 32 9, [⟨[9]⟩]⟩⟩
      ⟨fun _ => none, fun _ => none⟩ ⟨6, List.replicate 32 5, [⟨[7]⟩]⟩ []).txHash [9] = none
    ∧ (saveReceipts ⟨10000, 150, 1⟩ ⟨5, fun _ => some ⟨4, List.replicate 32 9, [⟨[9]⟩]⟩⟩
      ⟨fun _ => none, fun _ => none⟩ ⟨6, List.replicate 32 5, [⟨[7]⟩]⟩ []).txHash [7] =
      some (encodeTxHashIndex (List.replicate 32 5) 0) := by
  have h := saveReceipts_txLookupLimit_gc
    ⟨10000, 150, 1⟩ ⟨5, fun _ => some ⟨4, List.replicate 32 9, [⟨[9]⟩]⟩⟩
    ⟨fun _ => none, fun _ => none⟩ ⟨6, List.replicate 32 5, [⟨[7]⟩]⟩ []
  refine ⟨h.1 ⟨4, List.replicate 32 9, [⟨[9]⟩]⟩ ⟨[9]⟩ (by decide) (by decide) rfl (by decide), ?_⟩
  refine h.2 0 ⟨[7]⟩ (Or.inr (by decide)) (by decide) (by decide) ?_
  intro old hold
  have hh := Option.some.inj hold
  subst hh
  decide

/-- C10: `getReceiptByTxHash` returns `null` when the tx hash has no index entry,
and when the index resolves to a block hash with no stored receipts. -/
theorem getReceiptByTxHash_null_cases (db : DB) (th : List Nat) :
    (db.txHash th = none → getReceiptByTxHash db th = none)
    ∧ (∀ bh i, db.txHash th = some (encodeTxHashIndex bh i) →
      bh.length = 32 → i < 2 ^ 64 → db.receipts bh = none →
      getReceiptByTxHash db th = none) := by
  constructor
  · intro h
    simp only [getReceiptByTxHash, getIndex, h]
  · intro bh i hidx hbh hi hrec
    simp only [getReceiptByTxHash, getIndex, hidx,
      decodeTxHashIndex_encodeTxHashIndex bh i hbh hi, getReceipts, hrec]
    simp

/-- Witness for C10: an empty store, and a store holding only an index entry. -/
theorem getReceiptByTxHash_null_cases_witness :
    getReceiptByTxHash ⟨fun _ => none, fun _ => none⟩ [1] = none
    ∧ getReceiptByTxHash
        ⟨fun _ => none, fun k => if k = [1] then some (encodeTxHashIndex (List.replicate 32 2) 0) else none⟩
        [1] = none := by
  constructor
  · exact (getReceiptByTxHash_null_cases ⟨fun _ => none, fun _ => none⟩ [1]).1 rfl
  · exact (getReceiptByTxHash_null_cases
      ⟨fun _ => none, fun k => if k = [1] then some (encodeTxHashIndex (List.replicate 32 2) 0) else none⟩
      [1]).2 (List.replicate 32 2) 0 (by decide) (by decide) (by decide) rfl

/-! ## getLogs

`getLogs(from, to, addresses?, topics?)` iterates the block numbers of the
range, flattens each block's receipts into `{log, block, tx, txIndex, logIndex}`
entries with a per-block running `logIndex`, filters by address and topics, and
stops after the first block at which the count or size budget is reached.
`chain.getBlock` rejects on a missing block, which aborts the query.
The serialized response size (`Buffer.byteLength(JSON.stringify(logs))`) is a
host-environment function, taken here as a `sizeFn` parameter. -/

structure LogEntry where
  log : LogE
  block : Block
  tx : Option Tx
  txIndex : Nat
  logIndex : Nat
deriving DecidableEq, Repr

/-- A topic filter position: `null` (match any), a single value, or a list. -/
inductive TopicFilter where
  | null : TopicFilter
  | single : List Nat → TopicFilter
  | array : List (List Nat) → TopicFilter
deriving DecidableEq, Repr

/-- The filter callback of the source's `topics` loop. The `return true` sits at
the bottom of the `for (const [i, topic] of topics.entries())` loop body, so the
first iteration always returns and positions beyond index 0 are never examined;
this function therefore only inspects `topics[0]`. (On a log with no topic at
index 0 the source's `equals(undefined)` would throw; that case is modelled as
no match and is not exercised by any theorem below.) -/
def topicsCallback (topics : List TopicFilter) (logTopics : List (List Nat)) : Bool :=
  match topics with
  | [] => false
  | t :: _ =>
    match t with
    | .array ts => ts.any (fun x => logTopics[0]? == some x)
    | .null => true
    | .single v => logTopics[0]? == some v

/-- Flatten a block's receipts into entries, with `txIndex` the receipt index
and `logIndex` running sequentially through the block. -/
def blockEntriesGo (block : Block) : List Receipt → Nat → Nat → List LogEntry
  | [], _, _ => []
  | r :: rs, receiptIndex, logIndex =>
    (r.logs.enum.map fun p =>
      ⟨p.2, block, block.transactions[receiptIndex]?, receiptIndex, logIndex + p.1⟩)
    ++ blockEntriesGo block rs (receiptIndex + 1) (logIndex + r.logs.length)

def blockEntries (block : Block) (receipts : List Receipt) : List LogEntry :=
  blockEntriesGo block receipts 0 0

def getLogsLoop (cfg : Cfg) (chain : Chain) (db : DB) (addresses : List (List Nat))
    (topics : List TopicFilter) (sizeFn : List LogEntry → Nat) :
    List Int → List LogEntry → Nat → Option (List LogEntry)
  | [], acc, _ => some acc
  | i :: rest, acc, size =>
    match chain.getBlock i with
    | none => none
    | some block =>
      let receipts := getReceipts db block.hash
      if receipts.length = 0 then
        getLogsLoop cfg chain db addresses topics sizeFn rest acc size
      else
        let logs0 := blockEntries block receipts
        let logs1 :=
          if 0 < addresses.length then
            logs0.filter (fun e => addresses.any (fun a => a == e.log.address))
          else logs0
        let logs2 :=
          if 0 < topics.length then
            logs1.filter (fun e => topicsCallback topics e.log.topics)
          else logs1
        let acc2 := acc ++ logs2
        let size2 := size + sizeFn logs2
        if cfg.GET_LOGS_LIMIT ≤ acc2.length
            ∨ cfg.GET_LOGS_LIMIT_MEGABYTES * 1048576 ≤ size2 then
          some acc2
        else
          getLogsLoop cfg chain db addresses topics sizeFn rest acc2 size2

/-- `for (let i = from.header.number; i <= to.header.number; i++)`. -/
def intRange (a b : Int) : List Int :=
  (List.range (b + 1 - a).toNat).map fun k => a + k

def getLogs (cfg : Cfg) (chain : Chain) (db : DB) (fromBlock toBlock : Block)
    (addresses : List (List Nat)) (topics : List TopicFilter)
    (sizeFn : List LogEntry → Nat) : Option (List LogEntry) :=
  getLogsLoop cfg chain db addresses topics sizeFn
    (intRange fromBlock.number toBlock.number) [] 0

/-- C1 (code evaluation): with topic filter `[null, T2]` and a single log whose
topics are `[T1, T3]` with `T3 ≠ T2`, `getLogs` KEEPS the log: the `return true`
inside the topics loop means only position 0 is ever checked, contradicting the
claim (and the source's own comment) that every filter position must match. -/
theorem getLogs_topic_filter_early_return :
    (getLogs ⟨10000, 150, 0⟩
        ⟨1, fun n => if n = 1 then some ⟨1, [1], [⟨[1, 1]⟩]⟩ else none⟩
        ⟨fun k => if k = [1]
            then some (encodeReceipts [.postByzantium 1 100 [⟨[0xaa], [[1], [3]], []⟩]])
            else none,
          fun _ => none⟩
        ⟨1, [1], [⟨[1, 1]⟩]⟩ ⟨1, [1], [⟨[1, 1]⟩]⟩
        [] [.null, .single [2]] (fun _ => 0)).map (List.map fun e => e.log.topics) =
      some [[[1], [3]]]
    ∧ ([3] : List Nat) ≠ [2] :=
  ⟨by decide, by decide⟩

/-! ### C2: the log-count / size budget -/

def c2Block (n : Int) : Block := ⟨n, [n.toNat], [⟨[n.toNat, 7]⟩]⟩

def c2Receipt : Receipt := .postByzantium 1 21000 [⟨[0xaa], [[1]], []⟩]

def c2Chain : Chain := ⟨100, fun n => if 1 ≤ n ∧ n ≤ 100 then some (c2Block n) else none⟩

def c2DB : DB :=
  ⟨fun k =>
    match k with
    | [n] => if 1 ≤ n ∧ n ≤ 100 then some (encodeReceipts [c2Receipt]) else none
    | _ => none,
   fun _ => none⟩

/-- Ascending `(block, txIndex, logIndex)` order between adjacent entries. -/
def entryOrdered (a b : LogEntry) : Prop :=
  a.block.number < b.block.number
  ∨ (a.block.number = b.block.number
     ∧ (a.txIndex < b.txIndex ∨ (a.txIndex = b.txIndex ∧ a.logIndex < b.logIndex)))

instance : DecidableRel entryOrdered :=
  fun a b => inferInstanceAs (Decidable
    (a.block.number < b.block.number
     ∨ (a.block.number = b.block.number
        ∧ (a.txIndex < b.txIndex ∨ (a.txIndex = b.txIndex ∧ a.logIndex < b.logIndex)))))

/-- Adjacent-pairs check that a list of entries is in ascending
`(block, txIndex, logIndex)` order. -/
def entriesAscending : List LogEntry → Bool
  | [] => true
  | [_] => true
  | a :: b :: rest => decide (entryOrdered a b) && entriesAscending (b :: rest)

def c2Expected : List LogEntry :=
  [⟨⟨[0xaa], [[1]], []⟩, c2Block 1, some ⟨[1, 7]⟩, 0, 0⟩,
   ⟨⟨[0xaa], [[1]], []⟩, c2Block 2, some ⟨[2, 7]⟩, 0, 0⟩,
   ⟨⟨[0xaa], [[1]], []⟩, c2Block 3, some ⟨[3, 7]⟩, 0, 0⟩]

set_option maxRecDepth 100000 in
set_option maxHeartbeats 1000000 in
/-- C2 (amended): the block-number iteration stops at the end of the first block
at which the collected-log count reaches `GET_LOGS_LIMIT` (or the size budget is
reached); the logs of that entire block are all included. With the range 1..100
holding 100 matching logs one per block and `GET_LOGS_LIMIT = 3`, exactly 3 logs
are returned, in ascending `(block, txIndex, logIndex)` order. -/
theorem getLogs_limit_truncation_amended :
    (getLogs ⟨10000, 150, 0⟩ c2Chain c2DB (c2Block 1) (c2Block 100) [] []
        (fun _ => 1)).map List.length = some 100
    ∧ getLogs ⟨3, 150, 0⟩ c2Chain c2DB (c2Block 1) (c2Block 100) [] [] (fun _ => 1) =
        some c2Expected
    ∧ entriesAscending c2Expected = true :=
  ⟨by decide, by decide, by decide⟩

def c2xReceipt : Receipt := .postByzantium 1 21000 (List.replicate 100 ⟨[0xaa], [[1]], []⟩)

def c2xBlock : Block := ⟨1, [1], [⟨[9]⟩]⟩

def c2xChain : Chain := ⟨1, fun n => if n = 1 then some c2xBlock else none⟩

def c2xDB : DB :=
  ⟨fun k => if k = [1] then some (encodeReceipts [c2xReceipt]) else none, fun _ => none⟩

set_option maxRecDepth 100000 in
set_option maxHeartbeats 1000000 in
/-- C2 (counterexample): a range containing exactly 100 matching logs, all in one
block, with `GET_LOGS_LIMIT = 3`: the limit check runs only after the whole
block's logs were pushed, so 100 logs are returned, not 3. -/
theorem getLogs_limit_truncation_counterexample :
    (getLogs ⟨3, 150, 0⟩ c2xChain c2xDB c2xBlock c2xBlock [] [] (fun _ => 1)).map
        List.length = some 100
    ∧ (getLogs ⟨3, 150, 0⟩ c2xChain c2xDB c2xBlock c2xBlock [] [] (fun _ => 1)).map
        List.length ≠ some 3 :=
  ⟨by decide, by decide⟩

/-! ## EVM interpreter and custom opcodes

Modelled from the spec: the EVM interpreter, opcode table and `runCode` entry
(`packages/evm/src/evm.ts`, `interpreter.ts`, `opcodes/`) are not among the
provided sources — only their tests and the error-string enum are. The model
below follows §3 (OpcodeDescriptor), §4.2 (memory cost `3·w + ⌊w²/512⌋`),
§4.3 (table construction: immutable defaults plus a per-EVM overlay where an
entry with only an opcode deletes the slot) and §4.4 (fetch/decode/execute
loop, gas charge `gasFn(runState, baseFee)` as the total charge, step event
emitted after the deduction and before `logicFn`, exceptional halts consuming
all remaining gas). Error strings are the `ERROR` enum of
`packages/evm/src/exceptions.ts`. `DEFAULTS` is restricted to the opcodes the
spec's scenarios execute (ADD, MSTORE, PUSH1, RETURN). -/

def WORD_MOD : Nat := 2 ^ 256

structure RunState where
  pc : Nat
  gasLeft : Nat
  stack : List Nat
  memory : List Nat
  code : List Nat
deriving DecidableEq, Repr

/-- Outcome of a `logicFn`: fall through to the next instruction, halt
successfully with return data, or halt exceptionally. -/
inductive LogicResult where
  | next : RunState → LogicResult
  | halt : RunState → List Nat → LogicResult
  | fail : String → LogicResult

structure Opcode where
  opcodeName : String
  baseFee : Nat
  minIn : Nat
  maxStack : Nat
  gasFn : RunState → Nat → Nat
  logicFn : RunState → LogicResult

structure StepEvent where
  pc : Nat
  opcodeName : String
  gasLeft : Nat
  stack : List Nat
deriving DecidableEq, Repr

structure Outcome where
  gasLeft : Nat
  stack : List Nat
  returnValue : List Nat
  error : Option String
  events : List StepEvent
deriving DecidableEq, Repr

/-- One word of memory cost: `3·w + ⌊w²/512⌋` at `w` words (§4.2). -/
def memCost (w : Nat) : Nat := 3 * w + w * w / 512

def memWords (bytes : Nat) : Nat := (bytes + 31) / 32

/-- Positive delta of the memory cost when touching `newBytes` bytes. -/
def memExpandGas (mem : List Nat) (newBytes : Nat) : Nat :=
  memCost (max (memWords mem.length) (memWords newBytes)) - memCost (memWords mem.length)

/-- Write a 32-byte big-endian word at `off`, extending memory to a multiple
of 32 covering it (reads of untouched bytes give 0). -/
def writeWord (mem : List Nat) (off v : Nat) : List Nat :=
  (List.range (max mem.length (memWords (off + 32) * 32))).map fun j =>
    if off ≤ j ∧ j < off + 32 then v / 256 ^ (off + 31 - j) % 256 else mem.getD j 0

/-- Read `len` bytes at `off`, zero past the current size. -/
def memRead (mem : List Nat) (off len : Nat) : List Nat :=
  (List.range len).map fun j => mem.getD (off + j) 0

def addOp : Opcode :=
  ⟨"ADD", 3, 2, 1025, fun _ base => base, fun s =>
    match s.stack with
    | a :: b :: rest => .next { s with stack := (a + b) % WORD_MOD :: rest, pc := s.pc + 1 }
    | _ => .fail "stack underflow"⟩

def mstoreOp : Opcode :=
  ⟨"MSTORE", 3, 2, 1026,
    fun s base => base + memExpandGas s.memory (s.stack.getD 0 0 + 32),
    fun s =>
      match s.stack with
      | off :: v :: rest =>
        .next { s with stack := rest, memory := writeWord s.memory off v, pc := s.pc + 1 }
      | _ => .fail "stack underflow"⟩

def push1Op : Opcode :=
  ⟨"PUSH1", 3, 0, 1023, fun _ base => base, fun s =>
    .next { s with stack := s.code.getD (s.pc + 1) 0 :: s.stack, pc := s.pc + 2 }⟩

def returnOp : Opcode :=
  ⟨"RETURN", 0, 2, 1026,
    fun s base => base + memExpandGas s.memory (s.stack.getD 0 0 + s.stack.getD 1 0),
    fun s =>
      match s.stack with
      | off :: len :: rest => .halt { s with stack := rest } (memRead s.memory off len)
      | _ => .fail "stack underflow"⟩

/-- Modelled from the spec: the immutable default opcode table `DEFAULTS(H)`,
restricted to the opcodes the spec's scenarios execute. -/
def DEFAULTS : Nat → Option Opcode := fun b =>
  if b = 0x01 then some addOp
  else if b = 0x52 then some mstoreOp
  else if b = 0x60 then some push1Op
  else if b = 0xf3 then some returnOp
  else none

/-- A `customOpcodes` entry: `descr = none` is an entry carrying only the
opcode byte, which deletes the slot; `some d` installs `d`. -/
structure CustomOpcodeEntry where
  opcode : Nat
  descr : Option Opcode

/-- The per-EVM overlay: the last entry for a byte wins; `some none` marks the
slot deleted, `some (some d)` an override, `none` no entry. -/
def buildOverlay : List CustomOpcodeEntry → Nat → Option (Option Opcode)
  | [], _ => none
  | e :: rest, b =>
    match buildOverlay rest b with
    | some r => some r
    | none => if e.opcode = b then some e.descr else none

/-- Effective table: `overlay.get(op) ?? defaults.get(op)`; a deleted slot
yields `none`, treated as `InvalidOpcode` by dispatch. The defaults map is a
pure function and is never modified by table construction. -/
def mkTable (defaults : Nat → Option Opcode) (customs : List CustomOpcodeEntry) :
    Nat → Option Opcode := fun b =>
  match buildOverlay customs b with
  | some r => r
  | none => defaults b

/-- The interpreter loop of §4.4. Exceptional halts (invalid opcode, stack
bounds, out of gas) zero `gasLeft`; the step event is emitted after the gas
deduction and before `logicFn` runs. The fuel argument only bounds the loop
(every theorem below runs straight-line code, for which `code.length + 1`
steps always suffice). -/
def runLoop (table : Nat → Option Opcode) :
    Nat → RunState → List StepEvent → Outcome
  | 0, s, evs => ⟨0, s.stack, [], some "internal error", evs⟩
  | fuel + 1, s, evs =>
    if s.code.length ≤ s.pc then ⟨s.gasLeft, s.stack, [], none, evs⟩
    else
      match table (s.code.getD s.pc 0) with
      | none => ⟨0, s.stack, [], some "invalid opcode", evs⟩
      | some op =>
        if s.stack.length < op.minIn then ⟨0, s.stack, [], some "stack underflow", evs⟩
        else if op.maxStack < s.stack.length then
          ⟨0, s.stack, [], some "stack overflow", evs⟩
        else if s.gasLeft < op.gasFn s op.baseFee then
          ⟨0, s.stack, [], some "out of gas", evs⟩
        else
          let s1 : RunState := { s with gasLeft := s.gasLeft - op.gasFn s op.baseFee }
          let ev : StepEvent := ⟨s1.pc, op.opcodeName, s1.gasLeft, s1.stack⟩
          match op.logicFn s1 with
          | .next s2 => runLoop table fuel s2 (evs ++ [ev])
          | .halt s2 ret => ⟨s1.gasLeft, s2.stack, ret, none, evs ++ [ev]⟩
          | .fail e => ⟨0, s1.stack, [], some e, evs ++ [ev]⟩

structure RunResult where
  executionGasUsed : Nat
  returnValue : List Nat
  error : Option String
  stack : List Nat
  events : List StepEvent
deriving DecidableEq, Repr

/-- `runCode({code, gasLimit})`. -/
def runCode (table : Nat → Option Opcode) (code : List Nat) (gasLimit : Nat) : RunResult :=
  let o := runLoop table (code.length + 1) ⟨0, gasLimit, [], [], code⟩ []
  ⟨gasLimit - o.gasLeft, o.returnValue, o.error, o.stack, o.events⟩

/-- The TEST opcode of the custom-opcode scenarios: `baseFee 333`,
`gasFn: g ↦ g + 33`, `logicFn: push 1`; stack bounds left at the neutral
`minStack = 0`, `maxStack = 1024`. -/
def testOpcode : Opcode :=
  ⟨"TEST", 333, 0, 1024, fun _ g => g + 33, fun s =>
    .next { s with stack := 1 :: s.stack, pc := s.pc + 1 }⟩

/-- C7: registering `{opcode: 0x21, name: "TEST", baseFee: 333, gasFn: g ↦ g+33,
logicFn: push 1}` and running code `21` charges 366 gas, leaves stack `[1]`, and
emits exactly one step event, at `pc = 0` with name `"TEST"`, whose stack
snapshot `[]` shows it was emitted before the logic ran. -/
theorem customOpcode_gas_logic_step :
    runCode (mkTable DEFAULTS [⟨0x21, some testOpcode⟩]) [0x21] 123456 =
      ⟨366, [], none, [1], [⟨0, "TEST", 123090, []⟩]⟩ := by
  decide

/-- C8: an overlay entry carrying only an opcode byte deletes the slot: running
that byte halts with `invalid opcode` and consumes all of the gas limit. -/
theorem customOpcode_delete_invalid (b : Nat) (g : Nat) :
    runCode (mkTable DEFAULTS [⟨b, none⟩]) [b] g =
      ⟨g, [], some "invalid opcode", [], []⟩ := by
  have htab : mkTable DEFAULTS [⟨b, none⟩] (([b] : List Nat).getD 0 0) = none := by
    simp [mkTable, buildOverlay, List.getD]
  have h1 : runLoop (mkTable DEFAULTS [⟨b, none⟩]) (([b] : List Nat).length + 1)
      ⟨0, g, [], [], [b]⟩ [] = ⟨0, [], [], some "invalid opcode", []⟩ := by
    rw [runLoop, if_neg (by simp), htab]
  simp only [runCode, h1, Nat.sub_zero]

/-- Witness for C8 at the test's concrete input (`opcode 0x20`, gas 123456). -/
theorem customOpcode_delete_invalid_witness :
    runCode (mkTable DEFAULTS [⟨0x20, none⟩]) [0x20] 123456 =
      ⟨123456, [], some "invalid opcode", [], []⟩ :=
  customOpcode_delete_invalid 0x20 123456

def addProgram : List Nat :=
  [0x60, 0x04, 0x60, 0x01, 0x01, 0x60, 0x00, 0x52, 0x60, 0x01, 0x60, 0x1f, 0xf3]

/-- C9: per-instance overlays never change the default table. Deleting ADD in
one table leaves the no-overlay table identical to `DEFAULTS` at every opcode,
and a default EVM still executes `60046001016000526001601FF3` returning `0x05`. -/
theorem defaults_not_overridden :
    (mkTable DEFAULTS [⟨0x01, none⟩]) 0x01 = none
    ∧ (∀ b, mkTable DEFAULTS [] b = DEFAULTS b)
    ∧ (runCode (mkTable DEFAULTS [⟨0x01, none⟩]) [0x01] 123456).error =
        some "invalid opcode"
    ∧ (runCode (mkTable DEFAULTS []) addProgram 123456).returnValue = [0x05]
    ∧ (runCode (mkTable DEFAULTS []) addProgram 123456).error = none :=
  ⟨rfl, fun _ => rfl, by decide, by decide, by decide⟩

/-! ## Precompiles 02 (SHA256) and 03 (RIPEMD160)

The precompile bodies are `packages/evm/src/precompiles/02-sha256.ts` and
`03-ripemd160.ts`. Modelled from the spec: `OOGResult(gasLimit)` (defined in
`evm.ts`, outside the provided sources) consumes all provided gas and returns
empty data with the `out of gas` error; the gas prices come from `ChainRules`
(`common.param('gasPrices', …)`) and the hash functions from
`ethereum-cryptography`, so prices and hashes are parameters here. -/

structure PrecompileResult where
  executionGasUsed : Nat
  returnValue : List Nat
  error : Option String
deriving DecidableEq, Repr

/-- Modelled from the spec: `OOGResult(gasLimit)` — out-of-gas consumes all
provided gas and returns no data. -/
def OOGResult (gasLimit : Nat) : PrecompileResult := ⟨gasLimit, [], some "out of gas"⟩

/-- `Math.ceil(len / 32)` on natural numbers. -/
def ceilDiv32 (len : Nat) : Nat := (len + 31) / 32

/-- `setLengthLeft(buf, n)` from `@ethereumjs/util`: left-pad with zeros to
`n` bytes (keeping the rightmost bytes when longer). -/
def setLengthLeft (bs : List Nat) (n : Nat) : List Nat :=
  if bs.length ≤ n then List.replicate (n - bs.length) 0 ++ bs
  else bs.drop (bs.length - n)

/-- `precompile02` (SHA256): gas `sha256 + sha256Word · ceil(len/32)`. -/
def precompile02 (sha256 : List Nat → List Nat) (base perWord : Nat)
    (data : List Nat) (gasLimit : Nat) : PrecompileResult :=
  let gasUsed := base + perWord * ceilDiv32 data.length
  if gasLimit < gasUsed then OOGResult gasLimit
  else ⟨gasUsed, sha256 data, none⟩

/-- `precompile03` (RIPEMD160): gas `ripemd160 + ripemd160Word · ceil(len/32)`,
result left-padded to 32 bytes. -/
def precompile03 (ripemd160 : List Nat → List Nat) (base perWord : Nat)
    (data : List Nat) (gasLimit : Nat) : PrecompileResult :=
  let gasUsed := base + perWord * ceilDiv32 data.length
  if gasLimit < gasUsed then OOGResult gasLimit
  else ⟨gasUsed, setLengthLeft (ripemd160 data) 32, none⟩

/-- C6: both precompiles charge `base + perWord · ⌈len/32⌉`; when the gas limit
is below that they fail with `out of gas`, consuming all provided gas with empty
return; otherwise they return the hash (RIPEMD160 left-padded to 32 bytes)
having used exactly the computed gas. -/
theorem precompile_hash_gas (sha256 ripemd160 : List Nat → List Nat)
    (base2 per2 base3 per3 : Nat) (data : List Nat) (gasLimit : Nat) :
    (gasLimit < base2 + per2 * ((data.length + 31) / 32) →
      precompile02 sha256 base2 per2 data gasLimit = ⟨gasLimit, [], some "out of gas"⟩)
    ∧ (base2 + per2 * ((data.length + 31) / 32) ≤ gasLimit →
      precompile02 sha256 base2 per2 data gasLimit =
        ⟨base2 + per2 * ((data.length + 31) / 32), sha256 data, none⟩)
    ∧ (gasLimit < base3 + per3 * ((data.length + 31) / 32) →
      precompile03 ripemd160 base3 per3 data gasLimit = ⟨gasLimit, [], some "out of gas"⟩)
    ∧ (base3 + per3 * ((data.length + 31) / 32) ≤ gasLimit →
      precompile03 ripemd160 base3 per3 data gasLimit =
        ⟨base3 + per3 * ((data.length + 31) / 32), setLengthLeft (ripemd160 data) 32, none⟩) := by
  refine ⟨fun h => ?_, fun h => ?_, fun h => ?_, fun h => ?_⟩
  · rw [precompile02]
    simp only [ceilDiv32]
    rw [if_pos h]
    rfl
  · rw [precompile02]
    simp only [ceilDiv32]
    rw [if_neg (by omega)]
  · rw [precompile03]
    simp only [ceilDiv32]
    rw [if_pos h]
    rfl
  · rw [precompile03]
    simp only [ceilDiv32]
    rw [if_neg (by omega)]

/-- Witness for C6: a 33-byte input (2 words) under both branches, with
`sha256` prices 60/12 and `ripemd160` prices 600/120. -/
theorem precompile_hash_gas_witness :
    precompile02 (fun l => [l.length]) 60 12 (List.replicate 33 1) 50 =
      ⟨50, [], some "out of gas"⟩
    ∧ precompile02 (fun l => [l.length]) 60 12 (List.replicate 33 1) 100 =
      ⟨84, [33], none⟩
    ∧ precompile03 (fun l => [l.length]) 600 120 (List.replicate 33 1) 500 =
      ⟨500, [], some "out of gas"⟩
    ∧ precompile03 (fun l => [l.length]) 600 120 (List.replicate 33 1) 1000 =
      ⟨840, List.replicate 31 0 ++ [33], none⟩ := by
  have h1 := precompile_hash_gas (fun l => [l.length]) (fun l => [l.length])
    60 12 600 120 (List.replicate 33 1) 50
  have h2 := precompile_hash_gas (fun l => [l.length]) (fun l => [l.length])
    60 12 600 120 (List.replicate 33 1) 100
  have h3 := precompile_hash_gas (fun l => [l.length]) (fun l => [l.length])
    60 12 600 120 (List.replicate 33 1) 500
  have h4 := precompile_hash_gas (fun l => [l.length]) (fun l => [l.length])
    60 12 600 120 (List.replicate 33 1) 1000
  refine ⟨(h1.1 (by decide)).trans (by decide),
    (h2.2.1 (by decide)).trans (by decide),
    (h3.2.2.1 (by decide)).trans (by decide),
    (h4.2.2.2 (by decide)).trans (by decide)⟩
